import Mathlib

/-!
Verification of the linux-symbol-scraping pipeline.

This file gives a shallow embedding, in Lean 4, of the core of the two
scripts `scanpackages.py` and `scrapedebs.py`:

* Python `dict`s are modelled as association lists in which a mutation
  `d[k] = v` conses `(k, v)` in front; `dictLookup` returns the value of the
  first (i.e. most recently written) binding, and `dictMem` tests key
  membership.  This gives exactly the lookup/membership semantics of an
  in-place updated Python dict.
* Python string operations are modelled on `List Char` (Python `str.upper`
  on the hex/ASCII data handled here is per-character `Char.toUpper`).
* Fallible calls (`subprocess.check_output`, `subprocess.check_call`,
  `json.load`) are modelled in the `Except PyErr` monad; an uncaught
  exception is an `Except.error` that propagates through `do`-binds, and a
  Python `except subprocess.CalledProcessError` handler is a `match` on
  `Except.error PyErr.calledProcess`.
* External collaborators (the network, the `file`/`readelf`/`dump_syms`
  tools, the unpacked file tree) are parameters of the embedded functions.
-/

/-- Python exceptions distinguished by the scripts: `subprocess.CalledProcessError`
(the only class ever caught) versus everything else (IOError, ValueError,
requests exceptions, ...). -/
inductive PyErr
  | calledProcess
  | other
deriving DecidableEq, Repr

/-- Lookup in an association-list model of a Python dict: the first binding
(most recent write) wins. -/
def dictLookup {α : Type} (m : List (String × α)) (k : String) : Option α :=
  (m.find? (fun p => p.1 == k)).map Prod.snd

/-- Key membership in the association-list model of a Python dict
(`k in d`). -/
def dictMem {α : Type} (m : List (String × α)) (k : String) : Bool :=
  m.any (fun p => p.1 == k)

/-- Python `s.strip()` on a character list. -/
def stripChars (l : List Char) : List Char :=
  ((l.dropWhile Char.isWhitespace).reverse.dropWhile Char.isWhitespace).reverse

/-- The substring after the last occurrence of `sep` (Python
`s.split(sep)[-1]`), as a character list. -/
def lastSplitComp (sep : Char) (l : List Char) : List Char :=
  (l.reverse.takeWhile (fun c => c ≠ sep)).reverse

namespace scrapedebs

/-- Python `zip(*[iter(s)]*2)` as used by `munge_build_id`: consecutive
character pairs, dropping a trailing odd character. -/
def pairUp : List Char → List String
  | c1 :: c2 :: rest => String.mk [c1, c2] :: pairUp rest
  | _ => []

/-- `scrapedebs.munge_build_id`: Breakpad stuffs the build id into a GUID
struct, so the byte pairs of the upper-cased id are flipped:
`reversed(b[:4]), reversed(b[4:6]), reversed(b[6:8]), b[8:16]` joined,
with a trailing `'0'`. -/
def munge_build_id (build_id : String) : String :=
  let b := pairUp (build_id.toList.map Char.toUpper)
  String.join ((b.take 4).reverse ++ ((b.drop 4).take 2).reverse ++
      ((b.drop 6).take 2).reverse ++ (b.drop 8).take 8) ++ "0"

/-- The `i`-th byte pair of the upper-cased identifier (characters `2*i` and
`2*i+1`).  Used to state which permutation `munge_build_id` applies. -/
def upperBytePair (s : String) (i : Nat) : String :=
  String.mk (((s.toList.map Char.toUpper).drop (2 * i)).take 2)

/-- ASCII hexadecimal digit test. -/
def isHexChar (c : Char) : Bool :=
  c.isDigit || ('a' ≤ c && c ≤ 'f') || ('A' ≤ c && c ≤ 'F')

/-- Python `os.path.basename`: the substring after the last `/`. -/
def basename (p : String) : String :=
  String.mk (lastSplitComp '/' p.toList)

/-- `scrapedebs.make_sym_filename`: `os.path.join(f, debug_id, f + ".sym")`
where `f` is the basename of the module path. -/
def make_sym_filename (filename debug_id : String) : String :=
  let f := basename filename
  f ++ "/" ++ debug_id ++ "/" ++ (f ++ ".sym")

/-- `scrapedebs.make_build_id_map` (the build walk of lines 109-111; the
`/tmp/packages.json` freshness cache around it is an I/O concern): for each
package and each `(filename, build_id)` fact, perform
`id_map[munge_build_id(build_id)] = (filename, package)`; in the
association-list dict model an assignment is a cons, and `dictLookup`
returns the most recent binding. -/
def make_build_id_map (ddebs : List (String × List (String × String))) :
    List (String × (String × String)) :=
  ddebs.foldl (fun idMap pd =>
    pd.2.foldl (fun m fb => (munge_build_id fb.2, (fb.1, pd.1)) :: m) idMap) []

/-- The iteration order of the `make_build_id_map` build walk, flattened:
one `(munged id, (filename, package))` entry per fact, package by package,
facts in list order. -/
def buildWalk (ddebs : List (String × List (String × String))) :
    List (String × (String × String)) :=
  ddebs.flatMap (fun pd => pd.2.map (fun fb => (munge_build_id fb.2, (fb.1, pd.1))))

/-- `collections.defaultdict(list)` append: `plan[k].append(v)` extends the
list of the binding of `k`, or adds a new `(k, [v])` binding at the end
(Python dict insertion order). -/
def multiAppend {α : Type} (m : List (String × List α)) (k : String) (v : α) :
    List (String × List α) :=
  match m with
  | [] => [(k, [v])]
  | (k', vs) :: rest =>
    if k' == k then (k', vs ++ [v]) :: rest else (k', vs) :: multiAppend rest k v

/-- One iteration of the resolver loop in `scrapedebs.main` (lines 174-179):
look the reported identifier up in `build_id_map` exactly as reported (no
normalization is applied at lookup time), and on a hit append
`(filename, make_sym_filename filename debug_id)` to the owning deb's plan
entry. -/
def resolveStep (build_id_map : List (String × (String × String)))
    (plan : List (String × List (String × String)))
    (req : String × String) : List (String × List (String × String)) :=
  match dictLookup build_id_map req.2 with
  | none => plan
  | some fd => multiAppend plan fd.2 (fd.1, make_sym_filename fd.1 req.2)

/-- The resolver of `scrapedebs.main`: fold `resolveStep` over the
missing-symbols list, starting from an empty `defaultdict(list)`. -/
def resolve (build_id_map : List (String × (String × String)))
    (missing_symbols : List (String × String)) :
    List (String × List (String × String)) :=
  missing_symbols.foldl (resolveStep build_id_map) []

/-- The files planned for one archive URL in a resolver plan. -/
def planFiles (plan : List (String × List (String × String))) (ddeb : String) :
    List (String × String) :=
  (dictLookup plan ddeb).getD []

/-- The archive URLs of a resolver plan (`debs_to_process.keys()`). -/
def planKeys (plan : List (String × List (String × String))) : List String :=
  plan.map Prod.fst

/-- `scrapedebs.process_deb` (the resolution pass): drop the files the symbol
server already has (`server_has_file`); if none are left, return `[]`
without fetching; otherwise fetch, extract
(`dpkg-deb --fsys-tarfile | tar x`) and run `dump_syms` over each requested
file, collecting `(symbol file name, output)` pairs in order.  The single
`except subprocess.CalledProcessError` handler wrapped around the whole
loop converts any tool failure into `[]` for the whole deb; non-subprocess
exceptions propagate. -/
def process_deb (server_has_file : String → Bool)
    (dump_syms : String → Except PyErr String)
    (fetch : Except PyErr Unit) (unpack : Except PyErr Unit)
    (files : List (String × String)) : Except PyErr (List (String × String)) :=
  let files2 := files.filter (fun fs => !server_has_file fs.2)
  if files2.isEmpty then Except.ok []
  else
    match (do
        let _ ← fetch
        let _ ← unpack
        files2.mapM (fun fs => do
          let out ← dump_syms fs.1
          pure (fs.2, out)) : Except PyErr (List (String × String))) with
    | Except.ok symbols => Except.ok symbols
    | Except.error PyErr.calledProcess => Except.ok []
    | Except.error PyErr.other => Except.error PyErr.other

/-- The resolution pass of `scrapedebs.main` maps `process_deb` over the
plan entries independently (`executor.map`). -/
def run_batch {α β : Type} (step : α → β) (batch : List α) : List β :=
  batch.map step

/-- Example symbol server for the C8 instances: it has nothing yet. -/
def shfEx : String → Bool := fun _ => false

/-- Example `dump_syms` for the C8 instances: non-zero exit
(CalledProcessError) on `/usr/lib/a.so` only. -/
def dsEx : String → Except PyErr String :=
  fun path =>
    if path == "/usr/lib/a.so" then Except.error PyErr.calledProcess
    else Except.ok "MODULE Linux x86_64 B SYMS"

end scrapedebs

namespace scanpackages

/-- Scheme characters accepted by Python `urlparse`. -/
def isSchemeChar (c : Char) : Bool :=
  c.isAlphanum || c == '+' || c == '-' || c == '.'

/-- Drop up to and including the first occurrence of `c`. -/
def dropThrough (c : Char) (l : List Char) : List Char :=
  match l.dropWhile (fun a => a ≠ c) with
  | [] => []
  | _ :: rest => rest

/-- The path component of a URL, following Python `urlparse` on the URL
shapes the crawler handles: strip the `#fragment`, strip a valid `scheme:`,
strip a `//netloc` (the path restarts at the next `/`), strip the
`?query`. -/
def urlPath (url : String) : String :=
  let l := url.toList.takeWhile (fun c => c ≠ '#')
  let pre := l.takeWhile (fun c => c ≠ ':')
  let l := if l.contains ':' && !pre.isEmpty && pre.all isSchemeChar
      && (pre.headD 'a').isAlpha then dropThrough ':' l else l
  let l := match l with
    | '/' :: '/' :: rest => rest.dropWhile (fun c => c ≠ '/')
    | _ => l
  String.mk (l.takeWhile (fun c => c ≠ '?'))

/-- Index of the last element satisfying `p` (Python `str.rfind`). -/
def rfindIdx (p : Char → Bool) (l : List Char) : Option Nat :=
  (l.reverse.findIdx? p).map (fun i => l.length - 1 - i)

/-- Python `os.path.splitext(p)[0]`: strip the extension after the last dot,
provided that dot comes after the last slash and the final path component
has a non-dot character before it. -/
def splitextRoot (p : String) : String :=
  let l := p.toList
  let sepIdx : Int := match rfindIdx (fun c => c == '/') l with
    | some i => (i : Int)
    | none => -1
  let dotIdx : Int := match rfindIdx (fun c => c == '.') l with
    | some i => (i : Int)
    | none => -1
  if sepIdx < dotIdx then
    let fname := (l.drop (sepIdx + 1).toNat).take (dotIdx - (sepIdx + 1)).toNat
    if fname.any (fun c => c != '.') then String.mk (l.take dotIdx.toNat) else p
  else p

/-- The architecture tag computed by `scrape_x86_debs` (line 181):
`os.path.splitext(urlparse.urlparse(deb).path)[0].split('_')[-1]` — note it
splits the extension-stripped *whole path* on `_`, not just the filename. -/
def debArch (deb : String) : String :=
  String.mk (lastSplitComp '_' (splitextRoot (urlPath deb)).toList)

/-- `scanpackages.scrape_x86_debs`, abstracted over the directory listing it
iterates (`scrape_html_directory_listing` performs I/O and is an external
collaborator): keep the debs whose computed tag is in `{'amd64', 'i386'}`. -/
def scrape_x86_debs (listing : List String) : List String :=
  listing.filter (fun deb => ["amd64", "i386"].contains (debArch deb))

/-- Modelled from the spec: the claim's reading of the filter predicate, the
final underscore-separated component of the *filename* stem (last `/`
segment of the URL path, extension stripped). -/
def filenameStemTag (deb : String) : String :=
  String.mk (lastSplitComp '_'
    (splitextRoot (String.mk (lastSplitComp '/' (urlPath deb).toList))).toList)

/-- The in-memory dict plus backing path of `scanpackages.AutoSaveDict`. -/
structure AutoSaveDict (V : Type) where
  data : List (String × V)
  path : String

/-- The on-disk contents of a file, as a later `json.load` sees them: a
complete serialized mapping (JSON round-trips), or a truncated prefix of a
serialization — the flushed part of a buffered `json.dump` whose tail has
not been written yet — which is not a parseable mapping. -/
inductive FileData (V : Type)
  | jsonMapping (m : List (String × V))
  | truncated
deriving DecidableEq

/-- A primitive filesystem operation: replacing a named file's on-disk
contents (a flush of buffered output, or a whole-file write), and
`os.rename`. -/
inductive FsOp (V : Type)
  | write (name : String) (contents : FileData V)
  | rename (src dst : String)

/-- The files on disk: name to contents, most recent write first. -/
def Disk (V : Type) := List (String × FileData V)

/-- Apply one filesystem operation.  `rename` atomically replaces the
destination with the source's current contents and removes the source. -/
def applyFsOp {V : Type} (fs : Disk V) : FsOp V → Disk V
  | .write name contents => (name, contents) :: fs
  | .rename src dst =>
    match dictLookup fs src with
    | some c => (dst, c) :: (List.filter (fun p => p.1 ≠ src) fs)
    | none => fs

/-- Run a sequence of filesystem operations. -/
def runFsOps {V : Type} (fs : Disk V) (ops : List (FsOp V)) : Disk V :=
  ops.foldl applyFsOp fs

/-- `AutoSaveDict.__setitem__`, at on-disk effect granularity and in the
source's statement order: update the in-memory dict (`dict.__setitem__`);
`json.dump` the whole new mapping into the `NamedTemporaryFile`'s buffered
file object — by the time the next statement runs, only `flushed` (whatever
prefix of the serialization the buffer has drained: `FileData.truncated`,
or the complete document if the buffer happened to empty) is on disk;
`os.rename` the temp file over the backing path — the source runs this
INSIDE the `with` block, before close; then leave the `with` block, whose
close flushes the buffered tail into the already-renamed file, completing
its contents.  Returns the updated dict and the disk operations in program
order. -/
def AutoSaveDict.setitem {V : Type} (d : AutoSaveDict V) (tmp : String)
    (flushed : FileData V) (k : String) (v : V) : AutoSaveDict V × List (FsOp V) :=
  let d2 : AutoSaveDict V := { d with data := (k, v) :: d.data }
  (d2, [FsOp.write tmp flushed, FsOp.rename tmp d.path,
        FsOp.write d.path (FileData.jsonMapping d2.data)])

/-- The C3 evaluation's backing store: the cache file holds the old
one-entry mapping. -/
def diskC : Disk Bool :=
  [("/tmp/ddebs.json", FileData.jsonMapping [("http://u1.ddeb", true)])]

/-- The C3 evaluation's `__setitem__` call: `d["http://u2.ddeb"] = True` on
the one-entry cache, with only a truncated prefix of the new serialization
flushed by rename time. -/
def setitemC : AutoSaveDict Bool × List (FsOp Bool) :=
  AutoSaveDict.setitem ⟨[("http://u1.ddeb", true)], "/tmp/ddebs.json"⟩
    "/tmp/tmp1234" FileData.truncated "http://u2.ddeb" true

/-- `AutoSaveDict.__init__`: if `os.path.isfile(path)`, the persisted mapping
is loaded with `json.load(open(path, 'rb'))`, whose failure on unreadable or
corrupt contents is NOT caught; otherwise the dict starts empty.  `loadFile`
models the backing store: `none` for "not a file", `some (.error e)` for
"present but open/json.load raises `e`", `some (.ok m)` for a parseable
mapping `m`. -/
def AutoSaveDict.init (V : Type) (path : String)
    (loadFile : String → Option (Except PyErr (List (String × V)))) :
    Except PyErr (AutoSaveDict V) :=
  match loadFile path with
  | none => Except.ok { data := [], path := path }
  | some (Except.ok m) => Except.ok { data := m, path := path }
  | some (Except.error e) => Except.error e

/-- A backing store that is present but whose contents fail `json.load`
(ValueError — not a CalledProcessError). -/
def corruptLoad : String → Option (Except PyErr (List (String × Bool))) :=
  fun _ => some (Except.error PyErr.other)

/-- A backing store with no file at any path. -/
def absentLoad : String → Option (Except PyErr (List (String × Bool))) :=
  fun _ => none

/-- A backing store holding one parseable mapping. -/
def okLoad : String → Option (Except PyErr (List (String × Bool))) :=
  fun _ => some (Except.ok [("http://ddebs.ubuntu.com/pool/p1.ddeb", true)])

/-- One line of `readelf -n` output matched against
`re.match("Build ID: (.*)", line.strip())`: on a match the captured group is
everything after the label. -/
def parseBuildIdLine (line : String) : Option String :=
  let t := stripChars line.toList
  if t.take 10 = "Build ID: ".toList then some (String.mk (t.drop 10)) else none

/-- The line loop of `GetBuildID`: return the first matched line whose
captured identifier has length 40; lines that match with another length are
skipped and scanning continues. -/
def findBuildId : List String → Option String
  | [] => none
  | line :: rest =>
    match parseBuildIdLine line with
    | some bid => if bid.length == 40 then some bid else findBuildId rest
    | none => findBuildId rest

/-- `scanpackages.GetBuildID`: run `file -Lb` via `subprocess.check_output`
(whose failure raises, uncaught), and if the output reports an ELF run
`readelf -n` (likewise uncaught) and scan its lines; a non-ELF file yields
`none`. -/
def GetBuildID (fileOut : String → Except PyErr String)
    (readelfLines : String → Except PyErr (List String)) (dso : String) :
    Except PyErr (Option String) := do
  let fo ← fileOut dso
  if fo.toList.take 3 = "ELF".toList then do
    let lines ← readelfLines dso
    return findBuildId lines
  else
    return none

/-- `scanpackages.process_deb`: fetch the archive and unpack it
(`dpkg-deb -x`; failures raise, uncaught), then walk the extracted files
probing each one; each hit appends `('/' + relative path, buildID)`.  There
is no handler around the probe, so a probe exception propagates and aborts
the walk (the `finally` block only removes the scratch directory). -/
def process_deb (fetch : Except PyErr Unit) (unpack : Except PyErr Unit)
    (walkFiles : List String)
    (probe : String → Except PyErr (Option String)) :
    Except PyErr (List (String × String)) := do
  let _ ← fetch
  let _ ← unpack
  walkFiles.foldlM (fun acc f => do
    match (← probe f) with
    | some bid => pure (acc ++ [("/" ++ f, bid)])
    | none => pure acc) []

/-- Example `file -Lb` tool for the C5 instances: everything is an ELF. -/
def fileOutEx : String → Except PyErr String :=
  fun _ => Except.ok "ELF 64-bit LSB shared object"

/-- Example `readelf -n` tool for the C5 instances: crashes
(CalledProcessError) on `a.so`, reports a build id for any other file. -/
def readelfEx : String → Except PyErr (List String) :=
  fun dso =>
    if dso == "a.so" then Except.error PyErr.calledProcess
    else Except.ok ["Displaying notes found in: .note.gnu.build-id",
      "  Build ID: 99c2106c44189e354e1826aa285a0ccf7cbdf726"]

/-- The identifier probe assembled from the example tools. -/
def probeEx : String → Except PyErr (Option String) :=
  GetBuildID fileOutEx readelfEx

/-- The deterministic environment of one `scrape_all_ddebs` run: the package
URLs produced by `scrape_package_list`, the per-package deb listing produced
by `scrape_x86_debs`, the per-deb scan result produced by `process_deb`
(all I/O-backed external collaborators of the orchestrator), and
`multiprocessing.cpu_count() = k + 1`, the chunk size (at least 1). -/
structure Env (R : Type) where
  allUrls : List String
  listing : String → List String
  process : String → R
  k : Nat

/-- The two persistent dicts of `scrape_all_ddebs` (`/tmp/ddebs.json` and
`/tmp/processed-packages.json`). -/
structure ScrapeState (R : Type) where
  ddebs : List (String × R)
  processed : List (String × Bool)

/-- One persistence event of the orchestrator loop: `ddebs[deb] = result`
as one task's result is consumed, or `processed_packages[url] = True` at
the end of one url iteration. -/
inductive Event (R : Type)
  | persistDeb (deb : String) (r : R)
  | markUrl (url : String)
deriving DecidableEq

/-- Apply one persistence event to the caches (each `AutoSaveDict`
assignment conses in the dict model). -/
def applyEvent {R : Type} (s : ScrapeState R) : Event R → ScrapeState R
  | .persistDeb d r => { s with ddebs := (d, r) :: s.ddebs }
  | .markUrl u => { s with processed := (u, true) :: s.processed }

/-- Replay a trace of persistence events. -/
def runTrace {R : Type} (s : ScrapeState R) (tr : List (Event R)) : ScrapeState R :=
  tr.foldl applyEvent s

/-- The deb URLs recorded in the ddebs cache. -/
def ddebsKeys {R : Type} (s : ScrapeState R) : List String :=
  s.ddebs.map Prod.fst

/-- The package URLs recorded as processed. -/
def processedKeys {R : Type} (s : ScrapeState R) : List String :=
  s.processed.map Prod.fst

/-- The events of one url iteration of the inner loop (lines 212-218):
filter the listed debs against the current ddebs cache
(`deb not in ddebs`), persist each remaining deb's result as it is consumed
(`ddebs[deb] = result`), then mark `url` processed.  `url` is the first
component of the `zip(package_urls, ...)` pair and `debs` is the listing of
the chunk's url — per the source, these can denote different packages. -/
def urlTrace {R : Type} (env : Env R) (s : ScrapeState R) (url : String)
    (debs : List String) : List (Event R) :=
  let newDebs := debs.filter (fun d => !(ddebsKeys s).contains d)
  newDebs.map (fun d => Event.persistDeb d (env.process d)) ++ [Event.markUrl url]

/-- One chunk of the orchestrator: iterate the
`zip(package_urls, executor.map(scrape_x86_debs, urls_chunk))` pairs in
order, threading the state. -/
def chunkTrace {R : Type} (env : Env R) :
    ScrapeState R → List (String × List String) → List (Event R)
  | _, [] => []
  | s, p :: rest =>
    let tr := urlTrace env s p.1 p.2
    tr ++ chunkTrace env (runTrace s tr) rest

/-- All chunks of the run.  The first zip component is the full
`package_urls` list on every chunk — this is the source's
`zip(package_urls, ...)` mislabeling, reproduced faithfully. -/
def chunksTrace {R : Type} (env : Env R) (pkgs : List String) :
    ScrapeState R → List (List String) → List (Event R)
  | _, [] => []
  | s, c :: rest =>
    let tr := chunkTrace env s (pkgs.zip (c.map env.listing))
    tr ++ chunksTrace env pkgs (runTrace s tr) rest

/-- `scanpackages.chunk(iterable, k+1)`, with a fuel argument so the
recursion is structural. -/
def chunkListAux {α : Type} (k : Nat) : Nat → List α → List (List α)
  | _, [] => []
  | 0, _ :: _ => []
  | fuel + 1, x :: xs => (x :: xs).take (k + 1) :: chunkListAux k fuel ((x :: xs).drop (k + 1))

/-- `scanpackages.chunk(iterable, k+1)`: split into consecutive chunks of
size `k+1` (the last one possibly shorter). -/
def chunkList {α : Type} (k : Nat) (l : List α) : List (List α) :=
  chunkListAux k l.length l

/-- The full event trace of one `scrape_all_ddebs` run started in state `s`:
filter the already-processed package urls, chunk them, run all chunks. -/
def scrapeTrace {R : Type} (env : Env R) (s : ScrapeState R) : List (Event R) :=
  let pkgs := env.allUrls.filter (fun u => !(processedKeys s).contains u)
  chunksTrace env pkgs s (chunkList env.k pkgs)

/-- `scanpackages.scrape_all_ddebs` as a state transformer over its two
caches. -/
def scrape_all_ddebs {R : Type} (env : Env R) (s : ScrapeState R) : ScrapeState R :=
  runTrace s (scrapeTrace env s)

/-- The deb of a persistence event, if any. -/
def persistOf {R : Type} : Event R → Option String
  | .persistDeb d _ => some d
  | .markUrl _ => none

/-- The debs persisted along a trace, in order. -/
def persistKeys {R : Type} (tr : List (Event R)) : List String :=
  tr.filterMap persistOf

/-- The empty caches of a first run. -/
def emptyState (R : Type) : ScrapeState R := ⟨[], []⟩

/-- The caches left on disk when the process is terminated right after the
first `t` persistence events of a fresh run. -/
def interruptedState {R : Type} (env : Env R) (t : Nat) : ScrapeState R :=
  runTrace (emptyState R) ((scrapeTrace env (emptyState R)).take t)

/-- `markPreceded env s tr`: every `markUrl u` event of `tr` comes after the
persistence of every deb listed for `u` — the state built from the events
before the mark already has all of `env.listing u` in its ddebs cache. -/
def markPreceded {R : Type} (env : Env R) (s : ScrapeState R) (tr : List (Event R)) : Prop :=
  ∀ (i : Nat) (u : String), tr[i]? = some (Event.markUrl u) →
    ∀ d ∈ env.listing u, d ∈ ddebsKeys (runTrace s (tr.take i))

/-- Witness environment for C2: three packages with overlapping deb
listings and chunk size 1, so the run has three chunks and exercises the
`zip(package_urls, ...)` mislabeling. -/
def envW : Env Nat :=
  { allUrls := ["http://u1", "http://u2", "http://u3"]
    listing := fun u =>
      if u == "http://u1" then ["http://u1/d1.deb"]
      else if u == "http://u2" then ["http://u1/d1.deb", "http://u2/d2.deb"]
      else if u == "http://u3" then ["http://u3/d3.deb"]
      else []
    process := fun _ => 0
    k := 0 }

end scanpackages

-- ======================================================================
-- Helper lemmas
-- ======================================================================

namespace scrapedebs

theorem pairUp_eq : ∀ l : List Char,
    pairUp l = (List.range (l.length / 2)).map (fun i => String.mk ((l.drop (2 * i)).take 2))
  | [] => by simp [pairUp]
  | [c] => by simp [pairUp]
  | c1 :: c2 :: rest => by
    have ih := pairUp_eq rest
    have h2 : (rest.length + 1 + 1) / 2 = rest.length / 2 + 1 := by omega
    simp only [pairUp, List.length_cons, h2, List.range_succ_eq_map, List.map_cons,
      List.map_map]
    congr 1

/-- Closed form of `munge_build_id` on length-40 input: the byte pairs are
emitted in the fixed order 3,2,1,0 / 5,4 / 7,6 / 8..15 with a trailing
`"0"`. -/
theorem munge_build_id_join (s : String) (hlen : s.length = 40) :
    munge_build_id s =
      String.join ([3, 2, 1, 0, 5, 4, 7, 6, 8, 9, 10, 11, 12, 13, 14, 15].map (upperBytePair s))
        ++ "0" := by
  have hl : (s.toList.map Char.toUpper).length = 40 := by
    rw [List.length_map]
    exact hlen
  simp only [munge_build_id, pairUp_eq, hl]
  have h20 : (40 : Nat) / 2 = 20 := by norm_num
  rw [h20]
  simp only [← List.map_take, ← List.map_drop, ← List.map_reverse]
  have ht4 : (List.range 20).take 4 = [0, 1, 2, 3] := by decide
  have hd4 : ((List.range 20).drop 4).take 2 = [4, 5] := by decide
  have hd6 : ((List.range 20).drop 6).take 2 = [6, 7] := by decide
  have hd8 : ((List.range 20).drop 8).take 8 = [8, 9, 10, 11, 12, 13, 14, 15] := by decide
  rw [ht4, hd4, hd6, hd8]
  simp [upperBytePair]

theorem join_foldl_length : ∀ (l : List String) (a : String),
    (l.foldl (fun r s => r ++ s) a).length = a.length + (l.map String.length).sum
  | [], a => by simp
  | x :: rest, a => by
    simp only [List.foldl_cons, List.map_cons, List.sum_cons]
    rw [join_foldl_length rest (a ++ x), String.length_append]
    omega

theorem length_join_of_pairs (l : List String) (h : ∀ x ∈ l, x.length = 2) :
    (String.join l).length = 2 * l.length := by
  have hsum : ∀ l' : List String, (∀ x ∈ l', x.length = 2) →
      (l'.map String.length).sum = 2 * l'.length := by
    intro l'
    induction l' with
    | nil => simp
    | cons x rest ih =>
      intro hx
      simp only [List.map_cons, List.sum_cons, List.length_cons]
      rw [hx x (List.mem_cons_self x rest), ih (fun y hy => hx y (List.mem_cons_of_mem x hy))]
      ring
  rw [String.join, join_foldl_length, hsum l h]
  simp

theorem upperBytePair_eq_of_take (s t : String) (i : Nat) (hi : 2 * i + 2 ≤ 32)
    (hpre : s.toList.take 32 = t.toList.take 32) :
    upperBytePair s i = upperBytePair t i := by
  have hpre' : (s.toList.map Char.toUpper).take 32 = (t.toList.map Char.toUpper).take 32 := by
    rw [← List.map_take, ← List.map_take, hpre]
  have key : ∀ l : List Char, (l.drop (2 * i)).take 2 = ((l.take 32).drop (2 * i)).take 2 := by
    intro l
    rw [List.drop_take, List.take_take]
    congr 1
    omega
  unfold upperBytePair
  rw [key (s.toList.map Char.toUpper), key (t.toList.map Char.toUpper), hpre']

theorem munge_prefix_32 (s t : String) (hs : s.length = 40) (ht : t.length = 40)
    (hpre : s.toList.take 32 = t.toList.take 32) :
    munge_build_id s = munge_build_id t := by
  have hmap : [3, 2, 1, 0, 5, 4, 7, 6, 8, 9, 10, 11, 12, 13, 14, 15].map (upperBytePair s)
      = [3, 2, 1, 0, 5, 4, 7, 6, 8, 9, 10, 11, 12, 13, 14, 15].map (upperBytePair t) := by
    apply List.map_congr_left
    intro i hi
    have hle : i ≤ 15 := by
      simp only [List.mem_cons, List.not_mem_nil, or_false] at hi
      omega
    exact upperBytePair_eq_of_take s t i (by omega) hpre
  rw [munge_build_id_join s hs, munge_build_id_join t ht, hmap]

end scrapedebs

/-- C6: identifier normalization is a pure function that, on a 40-character
hexadecimal identifier, returns the 33-character string obtained by
upper-casing the byte pairs, permuting them in the fixed 4/2/2/8 byte-group
order (pairs 3,2,1,0 then 5,4 then 7,6 then 8..15), and appending a trailing
`'0'`.  Purity/determinism is inherent: `munge_build_id` is a function of its
argument alone, so applying it twice to the same input gives the same
output. -/
theorem munge_build_id_normalizes (s : String) (hlen : s.length = 40)
    (hhex : ∀ c ∈ s.toList, scrapedebs.isHexChar c = true) :
    scrapedebs.munge_build_id s =
      String.join ([3, 2, 1, 0, 5, 4, 7, 6, 8, 9, 10, 11, 12, 13, 14, 15].map
        (scrapedebs.upperBytePair s)) ++ "0"
    ∧ (scrapedebs.munge_build_id s).length = 33
    ∧ ∃ t, scrapedebs.munge_build_id s = t ++ "0" := by
  have hj := scrapedebs.munge_build_id_join s hlen
  refine ⟨hj, ?_, ⟨_, hj⟩⟩
  rw [hj, String.length_append]
  have hpair : ∀ x ∈ [3, 2, 1, 0, 5, 4, 7, 6, 8, 9, 10, 11, 12, 13, 14, 15].map
      (scrapedebs.upperBytePair s), x.length = 2 := by
    intro x hx
    simp only [List.mem_map] at hx
    obtain ⟨i, hi, rfl⟩ := hx
    have h40 : (s.toList.map Char.toUpper).length = 40 := by
      rw [List.length_map]
      exact hlen
    have hle : i ≤ 15 := by
      simp only [List.mem_cons, List.not_mem_nil, or_false] at hi
      omega
    simp only [scrapedebs.upperBytePair, String.length, List.length_take, List.length_drop, h40]
    omega
  rw [scrapedebs.length_join_of_pairs _ hpair, List.length_map]
  decide

/-- Witness for C6 at the spec's example identifier
`99c2106c44189e354e1826aa285a0ccf7cbdf726`. -/
theorem munge_build_id_normalizes_witness :
    scrapedebs.munge_build_id "99c2106c44189e354e1826aa285a0ccf7cbdf726"
      = "6C10C2991844359E4E1826AA285A0CCF0"
    ∧ (scrapedebs.munge_build_id "99c2106c44189e354e1826aa285a0ccf7cbdf726").length = 33 :=
  ⟨by decide,
   (munge_build_id_normalizes "99c2106c44189e354e1826aa285a0ccf7cbdf726"
      (by decide) (by decide)).2.1⟩

/-- C10: the output of `munge_build_id` depends only on the first
32 characters (16 byte pairs) of the identifier: two 40-character
identifiers agreeing on their first 32 characters normalize identically,
so the last 4 bytes are discarded and normalization is not injective on
40-character identifiers. -/
theorem munge_build_id_prefix_determined (s t : String) (hs : s.length = 40)
    (ht : t.length = 40) (hpre : s.toList.take 32 = t.toList.take 32) :
    scrapedebs.munge_build_id s = scrapedebs.munge_build_id t
    ∧ ¬ (∀ a b : String, a.length = 40 → b.length = 40 →
          scrapedebs.munge_build_id a = scrapedebs.munge_build_id b → a = b) := by
  refine ⟨scrapedebs.munge_prefix_32 s t hs ht hpre, ?_⟩
  intro h
  have hab := h "99c2106c44189e354e1826aa285a0ccf7cbdf726"
      "99c2106c44189e354e1826aa285a0ccf00000000" (by decide) (by decide) (by decide)
  exact absurd hab (by decide)

/-- Witness for C10: two distinct identifiers differing only in their last
8 characters normalize to the same string. -/
theorem munge_build_id_prefix_determined_witness :
    scrapedebs.munge_build_id "99c2106c44189e354e1826aa285a0ccf7cbdf726"
      = scrapedebs.munge_build_id "99c2106c44189e354e1826aa285a0ccf00000000"
    ∧ "99c2106c44189e354e1826aa285a0ccf7cbdf726"
      ≠ "99c2106c44189e354e1826aa285a0ccf00000000" :=
  ⟨(munge_build_id_prefix_determined "99c2106c44189e354e1826aa285a0ccf7cbdf726"
      "99c2106c44189e354e1826aa285a0ccf00000000" (by decide) (by decide) (by decide)).1,
   by decide⟩

-- ======================================================================
-- C4: index build (make_build_id_map)
-- ======================================================================

namespace scrapedebs

theorem inner_fold_eq (pkg : String) (data : List (String × String)) :
    ∀ acc : List (String × (String × String)),
      data.foldl (fun m fb => (munge_build_id fb.2, (fb.1, pkg)) :: m) acc
        = (data.map (fun fb => (munge_build_id fb.2, (fb.1, pkg)))).reverse ++ acc := by
  induction data with
  | nil => intro acc; simp
  | cons fb rest ih =>
    intro acc
    simp only [List.foldl_cons, List.map_cons, List.reverse_cons]
    rw [ih]
    simp

theorem make_build_id_map_eq_walk (ddebs : List (String × List (String × String))) :
    make_build_id_map ddebs = (buildWalk ddebs).reverse := by
  suffices h : ∀ acc, ddebs.foldl (fun idMap pd =>
      pd.2.foldl (fun m fb => (munge_build_id fb.2, (fb.1, pd.1)) :: m) idMap) acc
      = (buildWalk ddebs).reverse ++ acc by
    have := h []
    simpa [make_build_id_map] using this
  induction ddebs with
  | nil => intro acc; simp [buildWalk]
  | cons pd rest ih =>
    intro acc
    simp only [List.foldl_cons]
    rw [inner_fold_eq, ih]
    simp [buildWalk, List.flatMap_cons]

theorem find?_of_filter_singleton {α : Type} (p : α → Bool) :
    ∀ (l : List α) (x : α), l.filter p = [x] → l.find? p = some x := by
  intro l
  induction l with
  | nil => intro x h; simp at h
  | cons a rest ih =>
    intro x h
    by_cases hp : p a
    · rw [List.filter_cons_of_pos hp] at h
      rw [List.find?_cons_of_pos _ hp]
      exact congrArg some (List.cons.inj h).1
    · rw [List.filter_cons_of_neg hp] at h
      rw [List.find?_cons_of_neg _ hp]
      exact ih x h

end scrapedebs

/-- C4: building the build-identifier index from a ddebs cache yields, for
every fact `(bid, fn, pkg)` in the cache, a lookup (by the index's key for
that fact, the normalized identifier `munge_build_id bid`, per §3/§4.5)
returning the `(filename, package)` pair of the *last* fact written during
the build walk whose normalized identifier equals that key; when the fact's
normalized identifier is claimed exactly once, the lookup returns exactly
that fact's `(fn, pkg)`. -/
theorem make_build_id_map_correct (ddebs : List (String × List (String × String)))
    (pkg : String) (data : List (String × String)) (fn bid : String)
    (hpkg : (pkg, data) ∈ ddebs) (hfact : (fn, bid) ∈ data) :
    dictLookup (scrapedebs.make_build_id_map ddebs) (scrapedebs.munge_build_id bid)
      = ((scrapedebs.buildWalk ddebs).reverse.find?
          (fun e => e.1 == scrapedebs.munge_build_id bid)).map Prod.snd
    ∧ (((scrapedebs.buildWalk ddebs).filter
          (fun e => e.1 == scrapedebs.munge_build_id bid)).length = 1 →
        dictLookup (scrapedebs.make_build_id_map ddebs) (scrapedebs.munge_build_id bid)
          = some (fn, pkg)) := by
  have hwalkmem : (scrapedebs.munge_build_id bid, (fn, pkg)) ∈ scrapedebs.buildWalk ddebs := by
    unfold scrapedebs.buildWalk
    rw [List.mem_flatMap]
    exact ⟨(pkg, data), hpkg, List.mem_map.mpr ⟨(fn, bid), hfact, rfl⟩⟩
  constructor
  · rw [scrapedebs.make_build_id_map_eq_walk]
    rfl
  · intro huniq
    rw [scrapedebs.make_build_id_map_eq_walk]
    have hfil : (scrapedebs.buildWalk ddebs).filter
        (fun e => e.1 == scrapedebs.munge_build_id bid)
        = [(scrapedebs.munge_build_id bid, (fn, pkg))] := by
      obtain ⟨a, ha⟩ := List.length_eq_one.mp huniq
      have hmemf : (scrapedebs.munge_build_id bid, (fn, pkg)) ∈
          (scrapedebs.buildWalk ddebs).filter (fun e => e.1 == scrapedebs.munge_build_id bid) :=
        List.mem_filter.mpr ⟨hwalkmem, by simp⟩
      rw [ha] at hmemf ⊢
      simp only [List.mem_singleton] at hmemf
      rw [hmemf]
    have : ((scrapedebs.buildWalk ddebs).reverse).filter
        (fun e => e.1 == scrapedebs.munge_build_id bid)
        = [(scrapedebs.munge_build_id bid, (fn, pkg))] := by
      rw [List.filter_reverse, hfil]
      rfl
    unfold dictLookup
    rw [scrapedebs.find?_of_filter_singleton _ _ _ this]
    rfl

/-- Witness for C4 on a two-package cache with distinct identifiers. -/
theorem make_build_id_map_correct_witness :
    dictLookup
      (scrapedebs.make_build_id_map
        [("http://ddebs.ubuntu.com/pool/p1.ddeb",
            [("/usr/lib/a.so", "99c2106c44189e354e1826aa285a0ccf7cbdf726")]),
         ("http://ddebs.ubuntu.com/pool/p2.ddeb",
            [("/usr/lib/b.so", "0123456789abcdef0123456789abcdef01234567")])])
      (scrapedebs.munge_build_id "0123456789abcdef0123456789abcdef01234567")
      = some ("/usr/lib/b.so", "http://ddebs.ubuntu.com/pool/p2.ddeb") :=
  (make_build_id_map_correct
      [("http://ddebs.ubuntu.com/pool/p1.ddeb",
          [("/usr/lib/a.so", "99c2106c44189e354e1826aa285a0ccf7cbdf726")]),
       ("http://ddebs.ubuntu.com/pool/p2.ddeb",
          [("/usr/lib/b.so", "0123456789abcdef0123456789abcdef01234567")])]
      "http://ddebs.ubuntu.com/pool/p2.ddeb"
      [("/usr/lib/b.so", "0123456789abcdef0123456789abcdef01234567")]
      "/usr/lib/b.so" "0123456789abcdef0123456789abcdef01234567"
      (by decide) (by decide)).2 (by decide)

-- ======================================================================
-- C1: the missing-symbol resolver
-- ======================================================================

theorem dictLookup_nil {α : Type} (k : String) : dictLookup ([] : List (String × α)) k = none :=
  rfl

theorem dictLookup_cons {α : Type} (k0 : String) (v0 : α) (rest : List (String × α))
    (k : String) :
    dictLookup ((k0, v0) :: rest) k = if k0 == k then some v0 else dictLookup rest k := by
  by_cases h : (k0 == k) = true
  · unfold dictLookup
    rw [List.find?_cons_of_pos _ (by simpa using h)]
    simp [h]
  · unfold dictLookup
    rw [List.find?_cons_of_neg _ (by simpa using h)]
    simp [h]

namespace scrapedebs

theorem planFiles_nil (k : String) : planFiles [] k = [] := rfl

theorem planFiles_cons (k0 : String) (vs : List (String × String))
    (rest : List (String × List (String × String))) (k : String) :
    planFiles ((k0, vs) :: rest) k = if k0 == k then vs else planFiles rest k := by
  unfold planFiles
  rw [dictLookup_cons]
  by_cases h : (k0 == k) = true <;> simp [h]

theorem multiAppend_cons_pos (k0 : String) (vs : List (String × String))
    (rest : List (String × List (String × String))) (k : String) (v : String × String)
    (hb : (k0 == k) = true) :
    multiAppend ((k0, vs) :: rest) k v = (k0, vs ++ [v]) :: rest := by
  simp [multiAppend, hb]

theorem multiAppend_cons_neg (k0 : String) (vs : List (String × String))
    (rest : List (String × List (String × String))) (k : String) (v : String × String)
    (hb : ¬ (k0 == k) = true) :
    multiAppend ((k0, vs) :: rest) k v = (k0, vs) :: multiAppend rest k v := by
  simp [multiAppend, hb]

theorem planFiles_multiAppend_mono (v : String × String) (k k' : String) :
    ∀ m : List (String × List (String × String)), ∀ x,
      x ∈ planFiles m k → x ∈ planFiles (multiAppend m k' v) k := by
  intro m
  induction m with
  | nil => intro x hx; rw [planFiles_nil] at hx; exact absurd hx (List.not_mem_nil x)
  | cons p rest ih =>
    obtain ⟨k0, vs⟩ := p
    intro x hx
    rw [planFiles_cons] at hx
    by_cases hb : (k0 == k') = true
    · rw [multiAppend_cons_pos _ _ _ _ _ hb, planFiles_cons]
      by_cases h0 : (k0 == k) = true
      · rw [if_pos h0] at hx ⊢
        exact List.mem_append_left _ hx
      · rw [if_neg h0] at hx ⊢
        exact hx
    · rw [multiAppend_cons_neg _ _ _ _ _ hb, planFiles_cons]
      by_cases h0 : (k0 == k) = true
      · rw [if_pos h0] at hx ⊢
        exact hx
      · rw [if_neg h0] at hx ⊢
        exact ih x hx

theorem planFiles_resolveStep_mono (m : List (String × (String × String)))
    (req : String × String) (plan : List (String × List (String × String)))
    (k : String) (x : String × String) :
    x ∈ planFiles plan k → x ∈ planFiles (resolveStep m plan req) k := by
  intro hx
  unfold resolveStep
  cases dictLookup m req.2 with
  | none => exact hx
  | some fd => exact planFiles_multiAppend_mono _ _ _ plan x hx

theorem planFiles_foldl_mono (m : List (String × (String × String)))
    (reqs : List (String × String)) :
    ∀ (plan : List (String × List (String × String))) (k : String) (x : String × String),
      x ∈ planFiles plan k → x ∈ planFiles (reqs.foldl (resolveStep m) plan) k := by
  induction reqs with
  | nil => intro plan k x hx; exact hx
  | cons r rest ih =>
    intro plan k x hx
    simp only [List.foldl_cons]
    exact ih _ k x (planFiles_resolveStep_mono m r plan k x hx)

theorem planFiles_multiAppend_self (v : String × String) (k : String) :
    ∀ m : List (String × List (String × String)), v ∈ planFiles (multiAppend m k v) k := by
  intro m
  induction m with
  | nil =>
    show v ∈ planFiles [(k, [v])] k
    rw [planFiles_cons, if_pos (by simp)]
    exact List.mem_singleton.mpr rfl
  | cons p rest ih =>
    obtain ⟨k0, vs⟩ := p
    by_cases hb : (k0 == k) = true
    · rw [multiAppend_cons_pos _ _ _ _ _ hb, planFiles_cons, if_pos hb]
      exact List.mem_append_right _ (List.mem_singleton.mpr rfl)
    · rw [multiAppend_cons_neg _ _ _ _ _ hb, planFiles_cons, if_neg hb]
      exact ih

theorem planKeys_multiAppend_mem (v : String × String) (k : String) :
    ∀ m : List (String × List (String × String)), ∀ x,
      x ∈ planKeys (multiAppend m k v) → x ∈ planKeys m ∨ x = k := by
  intro m
  induction m with
  | nil =>
    intro x hx
    simp only [multiAppend, planKeys, List.map_cons, List.map_nil,
      List.mem_singleton] at hx
    exact Or.inr hx
  | cons p rest ih =>
    obtain ⟨k0, vs⟩ := p
    intro x hx
    by_cases hb : (k0 == k) = true
    · rw [multiAppend_cons_pos _ _ _ _ _ hb] at hx
      simp only [planKeys, List.map_cons, List.mem_cons] at hx ⊢
      exact Or.inl hx
    · rw [multiAppend_cons_neg _ _ _ _ _ hb] at hx
      simp only [planKeys, List.map_cons, List.mem_cons] at hx ⊢
      rcases hx with hx | hx
      · exact Or.inl (Or.inl hx)
      · rcases ih x hx with h | h
        · exact Or.inl (Or.inr h)
        · exact Or.inr h

theorem planKeys_multiAppend_nodup (v : String × String) (k : String) :
    ∀ m : List (String × List (String × String)),
      (planKeys m).Nodup → (planKeys (multiAppend m k v)).Nodup := by
  intro m
  induction m with
  | nil => intro _; simp [multiAppend, planKeys]
  | cons p rest ih =>
    obtain ⟨k0, vs⟩ := p
    intro hnd
    simp only [planKeys, List.map_cons, List.nodup_cons] at hnd
    obtain ⟨hk0, hrest⟩ := hnd
    by_cases hb : (k0 == k) = true
    · rw [multiAppend_cons_pos _ _ _ _ _ hb]
      simp only [planKeys, List.map_cons, List.nodup_cons]
      exact ⟨hk0, hrest⟩
    · rw [multiAppend_cons_neg _ _ _ _ _ hb]
      simp only [planKeys, List.map_cons, List.nodup_cons]
      refine ⟨?_, ih hrest⟩
      intro hmem
      rcases planKeys_multiAppend_mem v k rest k0 hmem with h | h
      · exact hk0 h
      · rw [h] at hb
        simp at hb

theorem resolve_foldl_nodup (m : List (String × (String × String)))
    (reqs : List (String × String)) :
    ∀ plan : List (String × List (String × String)),
      (planKeys plan).Nodup → (planKeys (reqs.foldl (resolveStep m) plan)).Nodup := by
  induction reqs with
  | nil => intro plan h; exact h
  | cons r rest ih =>
    intro plan h
    simp only [List.foldl_cons]
    apply ih
    unfold resolveStep
    cases dictLookup m r.2 with
    | none => exact h
    | some fd => exact planKeys_multiAppend_nodup _ _ plan h

end scrapedebs

/-- C1: the resolver looks each reported `(debugFileName, id)` pair up by the
identifier exactly as reported (no conversion is applied at lookup time, so
lookup succeeds precisely when the reported form equals the index's stored
key): a request whose `id` the index maps to `(fn, ddeb)` puts
`(fn, make_sym_filename fn id)` into the plan entry of the owning archive
`ddeb`; plan keys are pairwise distinct, so all hits sharing an owner URL
are grouped under a single entry and each archive is fetched once; and a
request whose identifier is absent from the index leaves the plan exactly
as if the request were not present. -/
theorem resolver_plan_correct (m : List (String × (String × String)))
    (reqs : List (String × String)) (f id fn ddeb : String)
    (hreq : (f, id) ∈ reqs) (hhit : dictLookup m id = some (fn, ddeb)) :
    (fn, scrapedebs.make_sym_filename fn id)
        ∈ scrapedebs.planFiles (scrapedebs.resolve m reqs) ddeb
    ∧ (scrapedebs.planKeys (scrapedebs.resolve m reqs)).Nodup
    ∧ (∀ (pre post : List (String × String)) (g id2 : String),
        dictLookup m id2 = none →
          scrapedebs.resolve m (pre ++ (g, id2) :: post)
            = scrapedebs.resolve m (pre ++ post)) := by
  refine ⟨?_, ?_, ?_⟩
  · obtain ⟨pre, post, rfl⟩ := List.append_of_mem hreq
    unfold scrapedebs.resolve
    rw [List.foldl_append, List.foldl_cons]
    apply scrapedebs.planFiles_foldl_mono
    show (fn, scrapedebs.make_sym_filename fn id)
        ∈ scrapedebs.planFiles (scrapedebs.resolveStep m _ (f, id)) ddeb
    unfold scrapedebs.resolveStep
    rw [hhit]
    exact scrapedebs.planFiles_multiAppend_self _ _ _
  · exact scrapedebs.resolve_foldl_nodup m reqs [] (by simp [scrapedebs.planKeys])
  · intro pre post g id2 hnone
    unfold scrapedebs.resolve
    rw [List.foldl_append, List.foldl_append, List.foldl_cons]
    congr 1
    unfold scrapedebs.resolveStep
    rw [hnone]

/-- Witness for C1: a two-request resolution against a one-entry index; the
matched request plans the owning archive, the unmatched one is dropped. -/
theorem resolver_plan_correct_witness :
    ("/usr/lib/b.so",
      scrapedebs.make_sym_filename "/usr/lib/b.so" "6C10C2991844359E4E1826AA285A0CCF0")
      ∈ scrapedebs.planFiles
          (scrapedebs.resolve
            [("6C10C2991844359E4E1826AA285A0CCF0",
                ("/usr/lib/b.so", "http://ddebs.ubuntu.com/pool/p2.ddeb"))]
            [("b.so", "6C10C2991844359E4E1826AA285A0CCF0"),
             ("c.so", "FFFFFFFFFFFFFFFFFFFFFFFFFFFFFFFF0")])
          "http://ddebs.ubuntu.com/pool/p2.ddeb" :=
  (resolver_plan_correct
      [("6C10C2991844359E4E1826AA285A0CCF0",
          ("/usr/lib/b.so", "http://ddebs.ubuntu.com/pool/p2.ddeb"))]
      [("b.so", "6C10C2991844359E4E1826AA285A0CCF0"),
       ("c.so", "FFFFFFFFFFFFFFFFFFFFFFFFFFFFFFFF0")]
      "b.so" "6C10C2991844359E4E1826AA285A0CCF0"
      "/usr/lib/b.so" "http://ddebs.ubuntu.com/pool/p2.ddeb"
      (by decide) (by decide)).1

-- ======================================================================
-- C9: the x86 architecture filter
-- ======================================================================

/-- C9 counterexample: the listed URL `http://ddebs.ubuntu.com/pool/amd64.ddeb`
has filename stem `amd64`, whose final underscore-separated component is the
supported tag `amd64`, yet the filter drops it: the code splits the
extension-stripped *whole path* (`/pool/amd64`) on `_`, which yields
`/pool/amd64`, not a tag. -/
theorem scrape_x86_debs_filename_stem_cex :
    scanpackages.filenameStemTag "http://ddebs.ubuntu.com/pool/amd64.ddeb" = "amd64"
    ∧ scanpackages.debArch "http://ddebs.ubuntu.com/pool/amd64.ddeb" = "/pool/amd64"
    ∧ scanpackages.scrape_x86_debs ["http://ddebs.ubuntu.com/pool/amd64.ddeb"] = [] := by
  refine ⟨by decide, by decide, by decide⟩

/-- C9 (amended): the filter emits exactly those listed URLs whose
extension-stripped URL *path*'s final underscore-separated component is one
of the two supported x86 tags (`amd64` or `i386`); for the usual deb names
(which carry a `_version_arch` suffix in the filename) this coincides with
the claim's filename-stem reading, but it differs when the filename stem
contains no underscore. -/
theorem scrape_x86_debs_filter (listing : List String) (d : String) :
    d ∈ scanpackages.scrape_x86_debs listing ↔
      d ∈ listing ∧ (scanpackages.debArch d = "amd64" ∨ scanpackages.debArch d = "i386") := by
  unfold scanpackages.scrape_x86_debs
  rw [List.mem_filter]
  constructor
  · rintro ⟨hmem, harch⟩
    refine ⟨hmem, ?_⟩
    rw [List.contains] at harch
    have := List.elem_iff.mp harch
    simpa using this
  · rintro ⟨hmem, harch⟩
    refine ⟨hmem, ?_⟩
    rw [List.contains]
    apply List.elem_iff.mpr
    simpa using harch

/-- Witness for C9's amended theorem: a normally-named amd64 ddeb is kept. -/
theorem scrape_x86_debs_filter_witness :
    "http://ddebs.ubuntu.com/pool/main/f/foo/foo-dbgsym_1.0-1_amd64.ddeb"
      ∈ scanpackages.scrape_x86_debs
        ["http://ddebs.ubuntu.com/pool/main/f/foo/foo-dbgsym_1.0-1_amd64.ddeb",
         "http://ddebs.ubuntu.com/pool/main/f/foo/foo-dbgsym_1.0-1_armhf.ddeb"] :=
  (scrape_x86_debs_filter
      ["http://ddebs.ubuntu.com/pool/main/f/foo/foo-dbgsym_1.0-1_amd64.ddeb",
       "http://ddebs.ubuntu.com/pool/main/f/foo/foo-dbgsym_1.0-1_armhf.ddeb"]
      "http://ddebs.ubuntu.com/pool/main/f/foo/foo-dbgsym_1.0-1_amd64.ddeb").mpr
    ⟨by decide, Or.inl (by decide)⟩

-- ======================================================================
-- C3: AutoSaveDict.__setitem__ crash safety
-- ======================================================================

/-- C3: evaluation of `__setitem__`'s on-disk effects at the failing input.
The claim's invariant — the persisted file always holds either the old or
the new complete mapping — is violated by the code: `os.rename` runs inside
the `NamedTemporaryFile` with-block, before close flushes the buffered
`json.dump` output, so killing the process after the rename and before the
close leaves the backing path holding a truncated serialization that is
neither the old nor the new complete mapping (and is unreadable to the next
startup).  Before the rename the old mapping is intact, and once the
with-block completes the path holds the new complete mapping and the
in-memory dict binds the new key — the invariant fails exactly in the
rename-to-close window. -/
theorem autoSaveDict_setitem_truncation_window :
    dictLookup (scanpackages.runFsOps scanpackages.diskC (scanpackages.setitemC.2.take 1))
        "/tmp/ddebs.json"
      = some (scanpackages.FileData.jsonMapping [("http://u1.ddeb", true)])
    ∧ dictLookup (scanpackages.runFsOps scanpackages.diskC (scanpackages.setitemC.2.take 2))
        "/tmp/ddebs.json"
      = some scanpackages.FileData.truncated
    ∧ (∀ m : List (String × Bool),
        (scanpackages.FileData.truncated : scanpackages.FileData Bool)
          ≠ scanpackages.FileData.jsonMapping m)
    ∧ dictLookup (scanpackages.runFsOps scanpackages.diskC scanpackages.setitemC.2)
        "/tmp/ddebs.json"
      = some (scanpackages.FileData.jsonMapping
          [("http://u2.ddeb", true), ("http://u1.ddeb", true)])
    ∧ dictLookup scanpackages.setitemC.1.data "http://u2.ddeb" = some true := by
  refine ⟨rfl, rfl, ?_, rfl, rfl⟩
  intro m
  simp

-- ======================================================================
-- C7: AutoSaveDict.__init__ on absent/corrupt backing stores
-- ======================================================================

/-- C7 counterexample: with a present-but-corrupt backing file, construction
does not succeed with an empty cache — the uncaught `json.load` error makes
startup fatal. -/
theorem autoSaveDict_init_corrupt_fatal_cex :
    scanpackages.AutoSaveDict.init Bool "/tmp/ddebs.json" scanpackages.corruptLoad
      = Except.error PyErr.other
    ∧ ∀ d : scanpackages.AutoSaveDict Bool,
        scanpackages.AutoSaveDict.init Bool "/tmp/ddebs.json" scanpackages.corruptLoad
          ≠ Except.ok d := by
  refine ⟨rfl, ?_⟩
  intro d h
  rw [show scanpackages.AutoSaveDict.init Bool "/tmp/ddebs.json" scanpackages.corruptLoad
      = Except.error PyErr.other from rfl] at h
  simp at h

/-- C7 (amended): an absent backing file yields an empty cache and a
parseable one yields the loaded cache, but a present-but-unreadable/corrupt
backing file raises the uncaught `open`/`json.load` error, so that startup
state is fatal (the spec's degrade-to-empty only covers absence). -/
theorem autoSaveDict_init_cases (V : Type) (path : String)
    (loadFile : String → Option (Except PyErr (List (String × V)))) :
    (loadFile path = none →
      scanpackages.AutoSaveDict.init V path loadFile = Except.ok ⟨[], path⟩)
    ∧ (∀ m, loadFile path = some (Except.ok m) →
      scanpackages.AutoSaveDict.init V path loadFile = Except.ok ⟨m, path⟩)
    ∧ (∀ e, loadFile path = some (Except.error e) →
      scanpackages.AutoSaveDict.init V path loadFile = Except.error e) := by
  unfold scanpackages.AutoSaveDict.init
  exact ⟨fun h => by rw [h], fun m h => by rw [h], fun e h => by rw [h]⟩

/-- Witness for C7's amended theorem: absent store starts empty, parseable
store loads. -/
theorem autoSaveDict_init_cases_witness :
    scanpackages.AutoSaveDict.init Bool "/tmp/ddebs.json" scanpackages.absentLoad
      = Except.ok ⟨[], "/tmp/ddebs.json"⟩
    ∧ scanpackages.AutoSaveDict.init Bool "/tmp/ddebs.json" scanpackages.okLoad
      = Except.ok ⟨[("http://ddebs.ubuntu.com/pool/p1.ddeb", true)], "/tmp/ddebs.json"⟩ :=
  ⟨(autoSaveDict_init_cases Bool "/tmp/ddebs.json" scanpackages.absentLoad).1 rfl,
   (autoSaveDict_init_cases Bool "/tmp/ddebs.json" scanpackages.okLoad).2.1 _ rfl⟩

-- ======================================================================
-- C5: probe failures during an archive scan (scanpackages.process_deb)
-- ======================================================================

theorem scan_foldlM_error_of_mem (probe : String → Except PyErr (Option String)) :
    ∀ (l : List String) (acc : List (String × String)) (f : String) (e : PyErr),
      f ∈ l → probe f = Except.error e →
      ∃ e2, (List.foldlM (fun acc g => do
          match (← probe g) with
          | some bid => pure (acc ++ [("/" ++ g, bid)])
          | none => pure acc) acc l : Except PyErr (List (String × String)))
        = Except.error e2 := by
  intro l
  induction l with
  | nil => intro acc f e hmem _; exact absurd hmem (List.not_mem_nil f)
  | cons g rest ih =>
    intro acc f e hmem herr
    rw [List.foldlM_cons]
    cases hg : probe g with
    | error e3 => exact ⟨e3, rfl⟩
    | ok o =>
      have hne : f ∈ rest := by
        rcases List.mem_cons.mp hmem with h | h
        · rw [h] at herr
          rw [herr] at hg
          exact absurd hg (by simp)
        · exact h
      cases o with
      | some bid =>
        obtain ⟨e2, h2⟩ := ih (acc ++ [("/" ++ g, bid)]) f e hne herr
        exact ⟨e2, h2⟩
      | none =>
        obtain ⟨e2, h2⟩ := ih acc f e hne herr
        exact ⟨e2, h2⟩

/-- C5 counterexample: an archive with walked files `a.so`, `b.so` where the
probe's `readelf` invocation crashes on `a.so` and succeeds on `b.so`
(finding identifier `99c2...726`): nothing catches the failure, so
`process_deb` raises — it does NOT return the fact gathered from `b.so`. -/
theorem process_deb_probe_abort_cex :
    scanpackages.probeEx "b.so"
      = Except.ok (some "99c2106c44189e354e1826aa285a0ccf7cbdf726")
    ∧ scanpackages.probeEx "a.so" = Except.error PyErr.calledProcess
    ∧ scanpackages.process_deb (Except.ok ()) (Except.ok ()) ["a.so", "b.so"]
        scanpackages.probeEx = Except.error PyErr.calledProcess
    ∧ ∀ facts, scanpackages.process_deb (Except.ok ()) (Except.ok ()) ["a.so", "b.so"]
        scanpackages.probeEx ≠ Except.ok facts := by
  refine ⟨rfl, rfl, rfl, ?_⟩
  intro facts h
  rw [show scanpackages.process_deb (Except.ok ()) (Except.ok ()) ["a.so", "b.so"]
      scanpackages.probeEx = Except.error PyErr.calledProcess from rfl] at h
  simp at h

/-- C5 (amended): a failing probe invocation is NOT caught: if the probe
raises on any walked file of the archive, `process_deb` propagates an
exception, so the archive scan aborts and no fact list — in particular none
of the facts gathered from the other files — is returned. -/
theorem process_deb_probe_failure_aborts (walkFiles : List String)
    (probe : String → Except PyErr (Option String)) (f : String) (e : PyErr)
    (hmem : f ∈ walkFiles) (herr : probe f = Except.error e) :
    (∃ e2, scanpackages.process_deb (Except.ok ()) (Except.ok ()) walkFiles probe
        = Except.error e2)
    ∧ ∀ facts, scanpackages.process_deb (Except.ok ()) (Except.ok ()) walkFiles probe
        ≠ Except.ok facts := by
  obtain ⟨e2, h2⟩ := scan_foldlM_error_of_mem probe walkFiles [] f e hmem herr
  have hp : scanpackages.process_deb (Except.ok ()) (Except.ok ()) walkFiles probe
      = Except.error e2 := h2
  refine ⟨⟨e2, hp⟩, ?_⟩
  intro facts h
  rw [hp] at h
  simp at h

/-- Witness for C5's amended theorem at the example probe. -/
theorem process_deb_probe_failure_aborts_witness :
    ∃ e2, scanpackages.process_deb (Except.ok ()) (Except.ok ()) ["lib/a.so", "a.so"]
        scanpackages.probeEx = Except.error e2 :=
  (process_deb_probe_failure_aborts ["lib/a.so", "a.so"] scanpackages.probeEx "a.so"
      PyErr.calledProcess (by decide) rfl).1

-- ======================================================================
-- C8: dump_syms failures during the resolution pass (scrapedebs.process_deb)
-- ======================================================================

theorem dump_mapM_error (ds : String → Except PyErr String)
    (hds : ∀ p, ds p ≠ Except.error PyErr.other) :
    ∀ l : List (String × String),
      (∃ fs ∈ l, ds fs.1 = Except.error PyErr.calledProcess) →
      (l.mapM (fun fs => do
          let out ← ds fs.1
          pure (fs.2, out)) : Except PyErr (List (String × String)))
        = Except.error PyErr.calledProcess := by
  intro l
  induction l with
  | nil =>
    rintro ⟨fs, hfs, _⟩
    exact absurd hfs (List.not_mem_nil fs)
  | cons g rest ih =>
    rintro ⟨fs, hfs, herr⟩
    rw [List.mapM_cons]
    cases hg : ds g.1 with
    | error e3 =>
      have he3 : e3 = PyErr.calledProcess := by
        cases e3
        · rfl
        · exact absurd hg (hds g.1)
      subst he3
      rfl
    | ok out =>
      have hne : fs ∈ rest := by
        rcases List.mem_cons.mp hfs with h | h
        · rw [h] at herr
          rw [herr] at hg
          exact absurd hg (by simp)
        · exact h
      have hrest := ih ⟨fs, hne, herr⟩
      rw [hrest]
      rfl

/-- C8 counterexample: a deb with two requested files, where `dump_syms`
exits non-zero on `a.so` only and succeeds on `b.so`: the single
CalledProcessError handler around the whole loop makes `process_deb` return
`[]` — `b.so`'s artifact is dropped along with `a.so`'s, contrary to the
claim that only the failing file's artifact is dropped. -/
theorem process_deb_batch_drop_cex :
    scrapedebs.dsEx "/usr/lib/b.so" = Except.ok "MODULE Linux x86_64 B SYMS"
    ∧ scrapedebs.dsEx "/usr/lib/a.so" = Except.error PyErr.calledProcess
    ∧ scrapedebs.process_deb scrapedebs.shfEx scrapedebs.dsEx (Except.ok ()) (Except.ok ())
        [("/usr/lib/a.so", "a.so/IDA/a.so.sym"), ("/usr/lib/b.so", "b.so/IDB/b.so.sym")]
      = Except.ok []
    ∧ ∀ res, scrapedebs.process_deb scrapedebs.shfEx scrapedebs.dsEx
        (Except.ok ()) (Except.ok ())
        [("/usr/lib/a.so", "a.so/IDA/a.so.sym"), ("/usr/lib/b.so", "b.so/IDB/b.so.sym")]
        = Except.ok res →
        ("b.so/IDB/b.so.sym", "MODULE Linux x86_64 B SYMS") ∉ res := by
  refine ⟨rfl, rfl, rfl, ?_⟩
  intro res h
  rw [show scrapedebs.process_deb scrapedebs.shfEx scrapedebs.dsEx
      (Except.ok ()) (Except.ok ())
      [("/usr/lib/a.so", "a.so/IDA/a.so.sym"), ("/usr/lib/b.so", "b.so/IDB/b.so.sym")]
      = Except.ok [] from rfl] at h
  simp only [Except.ok.injEq] at h
  rw [← h]
  exact List.not_mem_nil _

/-- C8 (amended): a non-zero `dump_syms` exit on ANY requested file of a deb
drops the whole deb's batch — `process_deb` returns `[]`, including nothing
for the files whose conversion would succeed; sibling debs are unaffected,
because the resolution pass maps `process_deb` over the plan entries
independently. -/
theorem process_deb_dump_syms_failure_drops_deb
    (shf : String → Bool) (ds : String → Except PyErr String)
    (unpack : Except PyErr Unit)
    (files : List (String × String)) (f s : String)
    (hmem : (f, s) ∈ files) (hns : shf s = false)
    (herr : ds f = Except.error PyErr.calledProcess)
    (hds : ∀ p, ds p ≠ Except.error PyErr.other)
    (hup : unpack ≠ Except.error PyErr.other) :
    scrapedebs.process_deb shf ds (Except.ok ()) unpack files = Except.ok []
    ∧ ∀ (step : List (String × String) → Except PyErr (List (String × String)))
        (pre post : List (List (String × String))) (x : List (String × String)),
        scrapedebs.run_batch step (pre ++ x :: post)
          = scrapedebs.run_batch step pre ++ step x :: scrapedebs.run_batch step post := by
  constructor
  · have hmem2 : (f, s) ∈ files.filter (fun fs => !shf fs.2) :=
      List.mem_filter.mpr ⟨hmem, by simp [hns]⟩
    have hne : (files.filter (fun fs => !shf fs.2)).isEmpty = false := by
      cases hfe : files.filter (fun fs => !shf fs.2) with
      | nil =>
        rw [hfe] at hmem2
        exact absurd hmem2 (List.not_mem_nil _)
      | cons a l => rfl
    simp only [scrapedebs.process_deb, hne, Bool.false_eq_true, if_false]
    cases hu : unpack with
    | error e =>
      have he : e = PyErr.calledProcess := by
        cases e
        · rfl
        · exact absurd hu hup
      subst he
      rfl
    | ok u =>
      rw [dump_mapM_error ds hds (files.filter (fun fs => !shf fs.2)) ⟨(f, s), hmem2, herr⟩]
      rfl
  · intro step pre post x
    simp [scrapedebs.run_batch]

/-- Witness for C8's amended theorem at the example tools. -/
theorem process_deb_dump_syms_failure_drops_deb_witness :
    scrapedebs.process_deb scrapedebs.shfEx scrapedebs.dsEx (Except.ok ()) (Except.ok ())
        [("/usr/lib/a.so", "a.so/IDA/a.so.sym"), ("/usr/lib/b.so", "b.so/IDB/b.so.sym")]
      = Except.ok [] :=
  (process_deb_dump_syms_failure_drops_deb scrapedebs.shfEx scrapedebs.dsEx (Except.ok ())
      [("/usr/lib/a.so", "a.so/IDA/a.so.sym"), ("/usr/lib/b.so", "b.so/IDB/b.so.sym")]
      "/usr/lib/a.so" "a.so/IDA/a.so.sym" (by decide) rfl rfl
      (fun p => by
        simp only [scrapedebs.dsEx]
        split <;> simp)
      (by simp)).1

-- ======================================================================
-- C2: resumability of scrape_all_ddebs — trace lemmas
-- ======================================================================

namespace scanpackages

theorem runTrace_append {R : Type} (s : ScrapeState R) (a b : List (Event R)) :
    runTrace s (a ++ b) = runTrace (runTrace s a) b :=
  List.foldl_append _ _ _ _

theorem not_contains_iff (l : List String) (x : String) :
    (!(l.contains x)) = true ↔ x ∉ l := by
  simp [List.contains, List.elem_iff]

theorem ddebsKeys_runTrace {R : Type} (tr : List (Event R)) :
    ∀ (s : ScrapeState R) (d : String),
      d ∈ ddebsKeys (runTrace s tr) ↔ d ∈ ddebsKeys s ∨ (∃ r, Event.persistDeb d r ∈ tr) := by
  induction tr with
  | nil => intro s d; simp [runTrace]
  | cons e rest ih =>
    intro s d
    rw [show runTrace s (e :: rest) = runTrace (applyEvent s e) rest from rfl, ih]
    cases e with
    | persistDeb d0 r0 =>
      simp only [applyEvent, ddebsKeys, List.map_cons, List.mem_cons, Event.persistDeb.injEq]
      aesop
    | markUrl u0 =>
      simp only [applyEvent, List.mem_cons]
      aesop

theorem processedKeys_runTrace {R : Type} (tr : List (Event R)) :
    ∀ (s : ScrapeState R) (u : String),
      u ∈ processedKeys (runTrace s tr) ↔ u ∈ processedKeys s ∨ Event.markUrl u ∈ tr := by
  induction tr with
  | nil => intro s u; simp [runTrace]
  | cons e rest ih =>
    intro s u
    rw [show runTrace s (e :: rest) = runTrace (applyEvent s e) rest from rfl, ih]
    cases e with
    | persistDeb d0 r0 =>
      simp only [applyEvent, List.mem_cons]
      aesop
    | markUrl u0 =>
      simp only [applyEvent, processedKeys, List.map_cons, List.mem_cons, Event.markUrl.injEq]
      aesop

theorem ddebsKeys_mono {R : Type} (s : ScrapeState R) (tr : List (Event R)) (d : String)
    (h : d ∈ ddebsKeys s) : d ∈ ddebsKeys (runTrace s tr) :=
  (ddebsKeys_runTrace tr s d).mpr (Or.inl h)

theorem persistKeys_append {R : Type} (a b : List (Event R)) :
    persistKeys (a ++ b) = persistKeys a ++ persistKeys b :=
  List.filterMap_append a b persistOf

theorem mem_persistKeys {R : Type} (tr : List (Event R)) (d : String) :
    d ∈ persistKeys tr ↔ ∃ r, Event.persistDeb d r ∈ tr := by
  simp only [persistKeys, List.mem_filterMap]
  constructor
  · rintro ⟨e, he, hp⟩
    cases e with
    | persistDeb d0 r0 =>
      simp only [persistOf, Option.some.injEq] at hp
      subst hp
      exact ⟨r0, he⟩
    | markUrl u0 => simp [persistOf] at hp
  · rintro ⟨r, hr⟩
    exact ⟨Event.persistDeb d r, hr, rfl⟩

theorem filterMap_persist {R : Type} (f : String → R) (l : List String) :
    List.filterMap persistOf (l.map (fun d => Event.persistDeb d (f d))) = l := by
  induction l with
  | nil => rfl
  | cons x rest ih => simp [persistOf, ih]

theorem persistKeys_urlTrace {R : Type} (env : Env R) (s : ScrapeState R)
    (url : String) (debs : List String) :
    persistKeys (urlTrace env s url debs)
      = debs.filter (fun d => !(ddebsKeys s).contains d) := by
  show persistKeys (_ ++ [Event.markUrl url]) = _
  rw [persistKeys_append]
  rw [show persistKeys ([Event.markUrl url] : List (Event R)) = [] from rfl]
  rw [List.append_nil]
  exact filterMap_persist env.process _

theorem mem_persistKeys_urlTrace {R : Type} (env : Env R) (s : ScrapeState R)
    (url : String) (debs : List String) (d : String) :
    d ∈ persistKeys (urlTrace env s url debs) ↔ d ∈ debs ∧ d ∉ ddebsKeys s := by
  rw [persistKeys_urlTrace, List.mem_filter]
  constructor
  · rintro ⟨h1, h2⟩
    exact ⟨h1, (not_contains_iff _ _).mp h2⟩
  · rintro ⟨h1, h2⟩
    exact ⟨h1, (not_contains_iff _ _).mpr h2⟩

theorem ddebsKeys_after_urlTrace {R : Type} (env : Env R) (s : ScrapeState R)
    (url : String) (debs : List String) (x : String) :
    x ∈ ddebsKeys (runTrace s (urlTrace env s url debs))
      ↔ x ∈ ddebsKeys s ∨ x ∈ debs := by
  rw [ddebsKeys_runTrace]
  constructor
  · rintro (h | ⟨r, hr⟩)
    · exact Or.inl h
    · have hx : x ∈ persistKeys (urlTrace env s url debs) :=
        (mem_persistKeys _ _).mpr ⟨r, hr⟩
      rw [mem_persistKeys_urlTrace] at hx
      exact Or.inr hx.1
  · rintro (h | h)
    · exact Or.inl h
    · by_cases hk : x ∈ ddebsKeys s
      · exact Or.inl hk
      · right
        have hx : x ∈ persistKeys (urlTrace env s url debs) :=
          (mem_persistKeys_urlTrace env s url debs x).mpr ⟨h, hk⟩
        exact (mem_persistKeys _ _).mp hx

end scanpackages

namespace scanpackages

theorem markPreceded_nil {R : Type} (env : Env R) (s : ScrapeState R) :
    markPreceded env s [] := by
  intro i u h
  simp at h

theorem markPreceded_append {R : Type} (env : Env R) (s : ScrapeState R)
    (tr1 tr2 : List (Event R))
    (h1 : markPreceded env s tr1) (h2 : markPreceded env (runTrace s tr1) tr2) :
    markPreceded env s (tr1 ++ tr2) := by
  intro i u hi d hd
  rw [List.getElem?_append] at hi
  by_cases hlt : i < tr1.length
  · rw [if_pos hlt] at hi
    have hh := h1 i u hi d hd
    rw [List.take_append_eq_append_take, show i - tr1.length = 0 from by omega,
      List.take_zero, List.append_nil]
    exact hh
  · rw [if_neg hlt] at hi
    have hh := h2 (i - tr1.length) u hi d hd
    rw [List.take_append_eq_append_take,
      show tr1.take i = tr1 from List.take_of_length_le (by omega),
      runTrace_append]
    exact hh

theorem markPreceded_urlTrace {R : Type} (env : Env R) (s : ScrapeState R)
    (url : String) (debs : List String)
    (hcov : ∀ d ∈ env.listing url, d ∈ debs ∨ d ∈ ddebsKeys s) :
    markPreceded env s (urlTrace env s url debs) := by
  intro i u hi d hd
  unfold urlTrace at hi ⊢
  rw [List.getElem?_append] at hi
  by_cases hlt : i < ((debs.filter (fun d => !(ddebsKeys s).contains d)).map
      (fun d => Event.persistDeb d (env.process d))).length
  · rw [if_pos hlt] at hi
    rw [List.getElem?_map] at hi
    cases hx : (debs.filter (fun d => !(ddebsKeys s).contains d))[i]? with
    | none => rw [hx] at hi; simp at hi
    | some x => rw [hx] at hi; simp at hi
  · rw [if_neg hlt] at hi
    have hz : i - ((debs.filter (fun d => !(ddebsKeys s).contains d)).map
        (fun d => Event.persistDeb d (env.process d))).length = 0 ∧ u = url := by
      cases h0 : i - ((debs.filter (fun d => !(ddebsKeys s).contains d)).map
          (fun d => Event.persistDeb d (env.process d))).length with
      | zero =>
        rw [h0] at hi
        simp only [List.getElem?_cons_zero, Option.some.injEq, Event.markUrl.injEq] at hi
        exact ⟨rfl, hi.symm⟩
      | succ n =>
        rw [h0] at hi
        simp at hi
    obtain ⟨hz0, rfl⟩ := hz
    have hieq : i = ((debs.filter (fun d => !(ddebsKeys s).contains d)).map
        (fun d => Event.persistDeb d (env.process d))).length := by omega
    subst hieq
    rw [List.take_append_eq_append_take, List.take_length, Nat.sub_self, List.take_zero,
      List.append_nil]
    apply (ddebsKeys_runTrace _ s d).mpr
    rcases hcov d hd with hdeb | hkey
    · by_cases hk : d ∈ ddebsKeys s
      · exact Or.inl hk
      · refine Or.inr ⟨env.process d, ?_⟩
        apply List.mem_map.mpr
        refine ⟨d, ?_, rfl⟩
        apply List.mem_filter.mpr
        exact ⟨hdeb, (not_contains_iff _ _).mpr hk⟩
    · exact Or.inl hkey

end scanpackages

namespace scanpackages

theorem markPreceded_chunkTrace {R : Type} (env : Env R) :
    ∀ (pairs : List (String × List String)) (s : ScrapeState R),
      (∀ p ∈ pairs, ∀ d ∈ env.listing p.1, d ∈ p.2 ∨ d ∈ ddebsKeys s) →
      markPreceded env s (chunkTrace env s pairs) := by
  intro pairs
  induction pairs with
  | nil => intro s _; exact markPreceded_nil env s
  | cons p rest ih =>
    intro s hcov
    show markPreceded env s (urlTrace env s p.1 p.2
      ++ chunkTrace env (runTrace s (urlTrace env s p.1 p.2)) rest)
    apply markPreceded_append
    · exact markPreceded_urlTrace env s p.1 p.2 (hcov p (List.mem_cons_self p rest))
    · apply ih
      intro q hq d hd
      rcases hcov q (List.mem_cons_of_mem p hq) d hd with h | h
      · exact Or.inl h
      · exact Or.inr (ddebsKeys_mono s _ d h)

theorem ddebsKeys_after_chunkTrace {R : Type} (env : Env R) :
    ∀ (pairs : List (String × List String)) (s : ScrapeState R) (x : String),
      x ∈ ddebsKeys (runTrace s (chunkTrace env s pairs))
        ↔ x ∈ ddebsKeys s ∨ ∃ p ∈ pairs, x ∈ p.2 := by
  intro pairs
  induction pairs with
  | nil => intro s x; simp [chunkTrace, runTrace]
  | cons p rest ih =>
    intro s x
    show x ∈ ddebsKeys (runTrace s (urlTrace env s p.1 p.2
      ++ chunkTrace env (runTrace s (urlTrace env s p.1 p.2)) rest)) ↔ _
    rw [runTrace_append, ih, ddebsKeys_after_urlTrace]
    simp only [List.mem_cons]
    constructor
    · rintro ((h | h) | ⟨q, hq, hx⟩)
      · exact Or.inl h
      · exact Or.inr ⟨p, Or.inl rfl, h⟩
      · exact Or.inr ⟨q, Or.inr hq, hx⟩
    · rintro (h | ⟨q, hq | hq, hx⟩)
      · exact Or.inl (Or.inl h)
      · exact Or.inl (Or.inr (by rw [← hq]; exact hx))
      · exact Or.inr ⟨q, hq, hx⟩

theorem mem_persistKeys_chunkTrace {R : Type} (env : Env R) :
    ∀ (pairs : List (String × List String)) (s : ScrapeState R) (d : String),
      d ∈ persistKeys (chunkTrace env s pairs)
        ↔ d ∉ ddebsKeys s ∧ ∃ p ∈ pairs, d ∈ p.2 := by
  intro pairs
  induction pairs with
  | nil => intro s d; simp [chunkTrace, persistKeys]
  | cons p rest ih =>
    intro s d
    show d ∈ persistKeys (urlTrace env s p.1 p.2
      ++ chunkTrace env (runTrace s (urlTrace env s p.1 p.2)) rest) ↔ _
    rw [persistKeys_append, List.mem_append, mem_persistKeys_urlTrace, ih,
      ddebsKeys_after_urlTrace]
    simp only [List.mem_cons]
    constructor
    · rintro (⟨h1, h2⟩ | ⟨hn, q, hq, hx⟩)
      · exact ⟨h2, p, Or.inl rfl, h1⟩
      · exact ⟨fun hk => hn (Or.inl hk), q, Or.inr hq, hx⟩
    · rintro ⟨hn, q, hq, hx⟩
      rcases hq with hq | hq
      · exact Or.inl ⟨by rw [← hq]; exact hx, hn⟩
      · by_cases hp2 : d ∈ p.2
        · exact Or.inl ⟨hp2, hn⟩
        · refine Or.inr ⟨?_, q, hq, hx⟩
          rintro (hk | hk)
          · exact hn hk
          · exact hp2 hk

theorem chunkListAux_congr {α : Type} (k : Nat) :
    ∀ (f1 f2 : Nat) (l : List α), l.length ≤ f1 → l.length ≤ f2 →
      chunkListAux k f1 l = chunkListAux k f2 l := by
  intro f1
  induction f1 with
  | zero =>
    intro f2 l h1 _
    have hl : l = [] := List.eq_nil_of_length_eq_zero (by omega)
    subst hl
    cases f2 <;> rfl
  | succ f ih =>
    intro f2 l h1 h2
    cases l with
    | nil => cases f2 <;> rfl
    | cons x xs =>
      cases f2 with
      | zero => simp at h2
      | succ f2' =>
        show (x :: xs).take (k + 1) :: chunkListAux k f ((x :: xs).drop (k + 1))
            = (x :: xs).take (k + 1) :: chunkListAux k f2' ((x :: xs).drop (k + 1))
        congr 1
        apply ih
        · rw [List.length_drop]
          simp only [List.length_cons] at h1 ⊢
          omega
        · rw [List.length_drop]
          simp only [List.length_cons] at h2 ⊢
          omega

theorem chunkList_cons {α : Type} (k : Nat) (x : α) (xs : List α) :
    chunkList k (x :: xs)
      = (x :: xs).take (k + 1) :: chunkList k ((x :: xs).drop (k + 1)) := by
  show (x :: xs).take (k + 1) :: chunkListAux k xs.length ((x :: xs).drop (k + 1)) = _
  congr 1
  apply chunkListAux_congr
  · rw [List.length_drop]
    simp only [List.length_cons]
    omega
  · exact Nat.le_refl _

theorem chunkList_mem_shape_aux {α : Type} (k : Nat) :
    ∀ (n : Nat) (l : List α), l.length ≤ n → ∀ c ∈ chunkList k l,
      c.length ≤ k + 1 ∧ c.length ≤ l.length ∧ ∀ x ∈ c, x ∈ l := by
  intro n
  induction n with
  | zero =>
    intro l hl c hc
    have : l = [] := List.eq_nil_of_length_eq_zero (by omega)
    subst this
    simp [chunkList, chunkListAux] at hc
  | succ m ih =>
    intro l hl c hc
    cases l with
    | nil => simp [chunkList, chunkListAux] at hc
    | cons x xs =>
      rw [chunkList_cons] at hc
      rcases List.mem_cons.mp hc with h | h
      · subst h
        refine ⟨by simpa using List.length_take_le (k + 1) (x :: xs), ?_, ?_⟩
        · rw [List.length_take]
          omega
        · intro y hy
          exact List.mem_of_mem_take hy
      · have hle : ((x :: xs).drop (k + 1)).length ≤ m := by
          rw [List.length_drop]
          simp only [List.length_cons] at hl ⊢
          omega
        obtain ⟨h1, h2, h3⟩ := ih _ hle c h
        refine ⟨h1, ?_, fun y hy => List.mem_of_mem_drop (h3 y hy)⟩
        rw [List.length_drop] at h2
        omega

theorem chunkList_mem_shape {α : Type} (k : Nat) (l : List α) (c : List α)
    (hc : c ∈ chunkList k l) :
    c.length ≤ k + 1 ∧ c.length ≤ l.length ∧ ∀ x ∈ c, x ∈ l :=
  chunkList_mem_shape_aux k l.length l (Nat.le_refl _) c hc

theorem mem_chunkList_of_mem_aux {α : Type} (k : Nat) :
    ∀ (n : Nat) (l : List α), l.length ≤ n → ∀ x ∈ l, ∃ c ∈ chunkList k l, x ∈ c := by
  intro n
  induction n with
  | zero =>
    intro l hl x hx
    have : l = [] := List.eq_nil_of_length_eq_zero (by omega)
    subst this
    exact absurd hx (List.not_mem_nil x)
  | succ m ih =>
    intro l hl x hx
    cases l with
    | nil => exact absurd hx (List.not_mem_nil x)
    | cons y ys =>
      rw [chunkList_cons]
      by_cases ht : x ∈ (y :: ys).take (k + 1)
      · exact ⟨(y :: ys).take (k + 1), List.mem_cons_self _ _, ht⟩
      · have hd : x ∈ (y :: ys).drop (k + 1) := by
          rcases List.mem_append.mp (by rw [List.take_append_drop]; exact hx :
              x ∈ (y :: ys).take (k + 1) ++ (y :: ys).drop (k + 1)) with h | h
          · exact absurd h ht
          · exact h
        have hle : ((y :: ys).drop (k + 1)).length ≤ m := by
          rw [List.length_drop]
          simp only [List.length_cons] at hl ⊢
          omega
        obtain ⟨c, hc, hxc⟩ := ih _ hle x hd
        exact ⟨c, List.mem_cons_of_mem _ hc, hxc⟩

theorem mem_chunkList_of_mem {α : Type} (k : Nat) (l : List α) (x : α) (hx : x ∈ l) :
    ∃ c ∈ chunkList k l, x ∈ c :=
  mem_chunkList_of_mem_aux k l.length l (Nat.le_refl _) x hx

theorem zip_self_take_map {α β : Type} (f : α → β) :
    ∀ (l : List α) (n : Nat),
      l.zip ((l.take n).map f) = (l.take n).map (fun u => (u, f u)) := by
  intro l
  induction l with
  | nil => intro n; simp
  | cons x xs ih =>
    intro n
    cases n with
    | zero => simp
    | succ m =>
      simp only [List.take_succ_cons, List.map_cons, List.zip_cons_cons]
      rw [ih m]

theorem mem_zip_left_take {α β : Type} :
    ∀ (l1 : List α) (l2 : List β) (a : α) (b : β),
      (a, b) ∈ l1.zip l2 → a ∈ l1.take l2.length := by
  intro l1
  induction l1 with
  | nil => intro l2 a b h; simp at h
  | cons x xs ih =>
    intro l2 a b h
    cases l2 with
    | nil => simp at h
    | cons y ys =>
      rw [List.zip_cons_cons] at h
      simp only [List.length_cons, List.take_succ_cons, List.mem_cons]
      rcases List.mem_cons.mp h with h | h
      · exact Or.inl (congrArg Prod.fst h)
      · exact Or.inr (ih ys a b h)

theorem mem_take_mono {α : Type} :
    ∀ (l : List α) (a b : Nat) (x : α), a ≤ b → x ∈ l.take a → x ∈ l.take b := by
  intro l
  induction l with
  | nil => intro a b x _ h; simp at h
  | cons y ys ih =>
    intro a b x hab h
    cases a with
    | zero => simp at h
    | succ a2 =>
      cases b with
      | zero => omega
      | succ b2 =>
        simp only [List.take_succ_cons, List.mem_cons] at h ⊢
        rcases h with h | h
        · exact Or.inl h
        · exact Or.inr (ih a2 b2 x (by omega) h)

theorem exists_zip_right {α β : Type} :
    ∀ (l2 : List β) (l1 : List α), l2.length ≤ l1.length →
      ∀ b ∈ l2, ∃ a, (a, b) ∈ l1.zip l2 := by
  intro l2
  induction l2 with
  | nil => intro l1 _ b hb; simp at hb
  | cons y ys ih =>
    intro l1 hlen b hb
    cases l1 with
    | nil => simp at hlen
    | cons x xs =>
      rw [List.zip_cons_cons]
      rcases List.mem_cons.mp hb with h | h
      · subst h
        exact ⟨x, List.mem_cons_self _ _⟩
      · obtain ⟨a, ha⟩ := ih xs (by
          simp only [List.length_cons] at hlen
          omega) b h
        exact ⟨a, List.mem_cons_of_mem _ ha⟩

end scanpackages

namespace scanpackages

theorem markPreceded_chunksTrace_rest {R : Type} (env : Env R) (pkgs : List String) :
    ∀ (chunks : List (List String)) (s : ScrapeState R),
      (∀ u ∈ pkgs.take (env.k + 1), ∀ d ∈ env.listing u, d ∈ ddebsKeys s) →
      (∀ c ∈ chunks, c.length ≤ env.k + 1) →
      markPreceded env s (chunksTrace env pkgs s chunks) := by
  intro chunks
  induction chunks with
  | nil => intro s _ _; exact markPreceded_nil env s
  | cons c rest ih =>
    intro s hlist hsize
    show markPreceded env s (chunkTrace env s (pkgs.zip (c.map env.listing))
      ++ chunksTrace env pkgs
          (runTrace s (chunkTrace env s (pkgs.zip (c.map env.listing)))) rest)
    apply markPreceded_append
    · apply markPreceded_chunkTrace
      rintro ⟨u, debs⟩ hp d hd
      right
      have h1 : u ∈ pkgs.take ((c.map env.listing).length) :=
        mem_zip_left_take _ _ _ _ hp
      rw [List.length_map] at h1
      have h2 : u ∈ pkgs.take (env.k + 1) :=
        mem_take_mono pkgs _ _ u (hsize c (List.mem_cons_self c rest)) h1
      exact hlist u h2 d hd
    · apply ih
      · intro u hu d hd
        exact ddebsKeys_mono s _ d (hlist u hu d hd)
      · intro c2 hc2
        exact hsize c2 (List.mem_cons_of_mem c hc2)

theorem markPreceded_chunks_full {R : Type} (env : Env R) (pkgs : List String)
    (s : ScrapeState R) :
    markPreceded env s (chunksTrace env pkgs s (chunkList env.k pkgs)) := by
  cases pkgs with
  | nil => exact markPreceded_nil env s
  | cons x xs =>
    rw [chunkList_cons]
    show markPreceded env s
      (chunkTrace env s ((x :: xs).zip (((x :: xs).take (env.k + 1)).map env.listing))
        ++ chunksTrace env (x :: xs)
            (runTrace s (chunkTrace env s
              ((x :: xs).zip (((x :: xs).take (env.k + 1)).map env.listing))))
            (chunkList env.k ((x :: xs).drop (env.k + 1))))
    apply markPreceded_append
    · apply markPreceded_chunkTrace
      intro p hp d hd
      rw [zip_self_take_map] at hp
      obtain ⟨u, _, hpe⟩ := List.mem_map.mp hp
      left
      rw [← hpe] at hd ⊢
      exact hd
    · apply markPreceded_chunksTrace_rest
      · intro u hu d hd
        rw [ddebsKeys_after_chunkTrace]
        right
        rw [zip_self_take_map]
        exact ⟨(u, env.listing u), List.mem_map.mpr ⟨u, hu, rfl⟩, hd⟩
      · intro c hc
        exact (chunkList_mem_shape env.k _ c hc).1

theorem markPreceded_scrapeTrace {R : Type} (env : Env R) (s : ScrapeState R) :
    markPreceded env s (scrapeTrace env s) :=
  markPreceded_chunks_full env _ s

theorem mem_persistKeys_chunksTrace {R : Type} (env : Env R) (pkgs : List String) :
    ∀ (chunks : List (List String)) (s : ScrapeState R) (d : String),
      (∀ c ∈ chunks, c.length ≤ pkgs.length) →
      (d ∈ persistKeys (chunksTrace env pkgs s chunks)
        ↔ d ∉ ddebsKeys s ∧ ∃ c ∈ chunks, ∃ v ∈ c, d ∈ env.listing v) := by
  intro chunks
  induction chunks with
  | nil => intro s d _; simp [chunksTrace, persistKeys]
  | cons c rest ih =>
    intro s d hlen
    show d ∈ persistKeys (chunkTrace env s (pkgs.zip (c.map env.listing))
      ++ chunksTrace env pkgs
          (runTrace s (chunkTrace env s (pkgs.zip (c.map env.listing)))) rest) ↔ _
    rw [persistKeys_append, List.mem_append, mem_persistKeys_chunkTrace,
      ih _ d (fun c2 hc2 => hlen c2 (List.mem_cons_of_mem c hc2)),
      ddebsKeys_after_chunkTrace]
    have hzip : ∀ x : String,
        (∃ p ∈ pkgs.zip (c.map env.listing), x ∈ p.2) ↔ ∃ v ∈ c, x ∈ env.listing v := by
      intro x
      constructor
      · rintro ⟨p, hp, hx⟩
        obtain ⟨v, hv, he⟩ := List.mem_map.mp (List.of_mem_zip hp).2
        exact ⟨v, hv, by rw [he]; exact hx⟩
      · rintro ⟨v, hv, hx⟩
        obtain ⟨a, ha⟩ := exists_zip_right (c.map env.listing) pkgs
          (by rw [List.length_map]; exact hlen c (List.mem_cons_self c rest))
          (env.listing v) (List.mem_map.mpr ⟨v, hv, rfl⟩)
        exact ⟨(a, env.listing v), ha, hx⟩
    rw [hzip]
    simp only [List.mem_cons]
    constructor
    · rintro (⟨h1, h2⟩ | ⟨hn, c2, hc2, hv⟩)
      · exact ⟨h1, c, Or.inl rfl, h2⟩
      · exact ⟨fun hk => hn (Or.inl hk), c2, Or.inr hc2, hv⟩
    · rintro ⟨hn, c2, hc2, v, hv, hx⟩
      rcases hc2 with hc2 | hc2
      · exact Or.inl ⟨hn, v, by rw [← hc2]; exact hv, hx⟩
      · by_cases hin : ∃ v2 ∈ c, d ∈ env.listing v2
        · exact Or.inl ⟨hn, hin⟩
        · refine Or.inr ⟨?_, c2, hc2, v, hv, hx⟩
          rintro (hk | hk)
          · exact hn hk
          · exact hin hk

theorem mem_persistKeys_scrapeTrace {R : Type} (env : Env R) (s : ScrapeState R)
    (d : String) :
    d ∈ persistKeys (scrapeTrace env s)
      ↔ d ∉ ddebsKeys s ∧ ∃ u ∈ env.allUrls, u ∉ processedKeys s ∧ d ∈ env.listing u := by
  have hlen : ∀ c ∈ chunkList env.k
        (env.allUrls.filter (fun u => !(processedKeys s).contains u)),
      c.length ≤ (env.allUrls.filter (fun u => !(processedKeys s).contains u)).length :=
    fun c hc => (chunkList_mem_shape env.k _ c hc).2.1
  show d ∈ persistKeys (chunksTrace env _ s (chunkList env.k _)) ↔ _
  rw [mem_persistKeys_chunksTrace env _ _ s d hlen]
  constructor
  · rintro ⟨hk, c, hc, v, hv, hd⟩
    have hvp : v ∈ env.allUrls.filter (fun u => !(processedKeys s).contains u) :=
      (chunkList_mem_shape env.k _ c hc).2.2 v hv
    refine ⟨hk, v, (List.mem_filter.mp hvp).1,
      (not_contains_iff _ _).mp (List.mem_filter.mp hvp).2, hd⟩
  · rintro ⟨hk, u, hu, hnp, hd⟩
    refine ⟨hk, ?_⟩
    have hup : u ∈ env.allUrls.filter (fun v => !(processedKeys s).contains v) :=
      List.mem_filter.mpr ⟨hu, (not_contains_iff _ _).mpr hnp⟩
    obtain ⟨c, hc, hvc⟩ := mem_chunkList_of_mem env.k _ u hup
    exact ⟨c, hc, u, hvc, hd⟩

end scanpackages

/-- C2: over a fresh run of the crawl/scan orchestrator terminated after its
first `t` persistence events: (1) the ddebs cache then holds exactly the
debs whose `ddebs[deb] = result` event is among those `t` events — results
are persisted per task, in consumption order, never batched at chunk end;
(2) any package URL recorded as processed has all of its listed debs'
results already persisted (marks happen only after the package's tasks are
persisted — this survives the `zip(package_urls, ...)` mislabeling because
the mislabeled marks only ever re-mark first-chunk URLs whose debs were
persisted in chunk 0); and (3) a fresh run from the interrupted caches
persists exactly the debs the uninterrupted run would persist minus the
ones already persisted: no already-persisted deb is re-fetched, no missing
one is skipped. -/
theorem scrape_all_ddebs_resumable {R : Type} (env : scanpackages.Env R) (t : Nat) :
    (∀ d, d ∈ scanpackages.ddebsKeys (scanpackages.interruptedState env t)
        ↔ ∃ r, scanpackages.Event.persistDeb d r
            ∈ (scanpackages.scrapeTrace env (scanpackages.emptyState R)).take t)
    ∧ (∀ u, u ∈ scanpackages.processedKeys (scanpackages.interruptedState env t) →
        ∀ d ∈ env.listing u, d ∈ scanpackages.ddebsKeys (scanpackages.interruptedState env t))
    ∧ (∀ d, d ∈ scanpackages.persistKeys
          (scanpackages.scrapeTrace env (scanpackages.interruptedState env t))
        ↔ d ∈ scanpackages.persistKeys
              (scanpackages.scrapeTrace env (scanpackages.emptyState R))
          ∧ d ∉ scanpackages.ddebsKeys (scanpackages.interruptedState env t)) := by
  have conj2 : ∀ u, u ∈ scanpackages.processedKeys (scanpackages.interruptedState env t) →
      ∀ d ∈ env.listing u,
        d ∈ scanpackages.ddebsKeys (scanpackages.interruptedState env t) := by
    intro u hu d hd
    unfold scanpackages.interruptedState at hu ⊢
    rw [scanpackages.processedKeys_runTrace] at hu
    rcases hu with h | h
    · simp [scanpackages.emptyState, scanpackages.processedKeys] at h
    · obtain ⟨i, hi⟩ := List.getElem?_of_mem h
      have hit : i < t ∧ (scanpackages.scrapeTrace env (scanpackages.emptyState R))[i]?
          = some (scanpackages.Event.markUrl u) := by
        rw [List.getElem?_take] at hi
        by_cases hlt : i < t
        · rw [if_pos hlt] at hi
          exact ⟨hlt, hi⟩
        · rw [if_neg hlt] at hi
          exact absurd hi (by simp)
      have hmp := scanpackages.markPreceded_scrapeTrace env (scanpackages.emptyState R)
        i u hit.2 d hd
      have h2 : ((scanpackages.scrapeTrace env (scanpackages.emptyState R)).take t).take i
          = (scanpackages.scrapeTrace env (scanpackages.emptyState R)).take i := by
        rw [List.take_take]
        congr 1
        omega
      rw [← List.take_append_drop i
        ((scanpackages.scrapeTrace env (scanpackages.emptyState R)).take t),
        scanpackages.runTrace_append, h2]
      exact scanpackages.ddebsKeys_mono _ _ d hmp
  refine ⟨?_, conj2, ?_⟩
  · intro d
    unfold scanpackages.interruptedState
    rw [scanpackages.ddebsKeys_runTrace]
    simp [scanpackages.emptyState, scanpackages.ddebsKeys]
  · intro d
    rw [scanpackages.mem_persistKeys_scrapeTrace, scanpackages.mem_persistKeys_scrapeTrace]
    constructor
    · rintro ⟨hk, u, hu, hnp, hd⟩
      exact ⟨⟨by simp [scanpackages.emptyState, scanpackages.ddebsKeys], u, hu,
        by simp [scanpackages.emptyState, scanpackages.processedKeys], hd⟩, hk⟩
    · rintro ⟨⟨_, u, hu, _, hd⟩, hk⟩
      by_cases hp : u ∈ scanpackages.processedKeys (scanpackages.interruptedState env t)
      · exact absurd (conj2 u hp d hd) hk
      · exact ⟨hk, u, hu, hp, hd⟩

/-- Witness for C2 on the three-package environment with chunk size 1,
interrupted after two events (the first deb's persistence and the first
mark): the marked package's listing is fully persisted. -/
theorem scrape_all_ddebs_resumable_witness :
    "http://u1/d1.deb" ∈ scanpackages.ddebsKeys
      (scanpackages.interruptedState scanpackages.envW 2) :=
  (scrape_all_ddebs_resumable scanpackages.envW 2).2.1 "http://u1" (by decide)
    "http://u1/d1.deb" (by decide)
